import Mathlib

set_option maxHeartbeats 1600000
set_option maxRecDepth 8000

/-!
Shallow embedding of the Mora Jai box puzzle
(`src/puzzle/src/puzzle.rs` and `src/puzzle/src/solver.rs`).

Rust panics (out-of-range `get`/`get_mut`, `expect`, `unwrap`, indexing)
are modelled with `Option`: `none` is a panic.  All reads of the pre-press
grid go to the unchanged receiver `g`; writes are threaded through the
`copy` accumulator, exactly as the Rust code clones `self` into `copy`.
-/

/-- The `Color` enum, in declaration order (the derived `Ord` is this order). -/
inductive Color where
  | Gray
  | White
  | Black
  | Red
  | Orange
  | Green
  | Yellow
  | Violet
  | Pink
  | Blue
deriving DecidableEq, Repr, Fintype

/-- `Color::NUM_VARIANTS`. -/
def Color.NUM_VARIANTS : Nat := 10

/-- A Mora Jai puzzle's grid: `colors: [Color; 9]`, indexed `row * 3 + col`.
Row 2 is printed on top, row 0 at the bottom (doc comment of `Grid`). -/
structure Grid where
  colors : Fin 9 → Color

instance : DecidableEq Grid := fun a b =>
  decidable_of_iff
    (a.colors 0 = b.colors 0 ∧ a.colors 1 = b.colors 1 ∧ a.colors 2 = b.colors 2
      ∧ a.colors 3 = b.colors 3 ∧ a.colors 4 = b.colors 4 ∧ a.colors 5 = b.colors 5
      ∧ a.colors 6 = b.colors 6 ∧ a.colors 7 = b.colors 7 ∧ a.colors 8 = b.colors 8)
    (by
      constructor
      · intro h
        obtain ⟨h0, h1, h2, h3, h4, h5, h6, h7, h8⟩ := h
        cases a; cases b
        exact congrArg Grid.mk (funext fun i => by fin_cases i <;> assumption)
      · intro h
        cases h
        exact ⟨rfl, rfl, rfl, rfl, rfl, rfl, rfl, rfl, rfl⟩)

/-- Equality of options, decided without the `Eq.rec` of the derived
instance, so that concrete press results evaluate by `decide` and `rfl`. -/
instance decEqOptionDirect {α : Type} [DecidableEq α] : DecidableEq (Option α) := fun a b =>
  match a, b with
  | none, none => isTrue rfl
  | none, some _ => isFalse (fun h => by cases h)
  | some _, none => isFalse (fun h => by cases h)
  | some x, some y =>
    if h : x = y then isTrue (congrArg some h)
    else isFalse (fun hh => h (Option.some.inj hh))

/-- Grids are in bijection with 9-tuples of colors. -/
def gridEquiv : Grid ≃ (Fin 9 → Color) where
  toFun := Grid.colors
  invFun := Grid.mk
  left_inv := fun g => by cases g; rfl
  right_inv := fun _ => rfl

instance : Fintype Grid := Fintype.ofEquiv _ gridEquiv.symm

namespace Grid

/-- `Grid::valid_coord`. -/
def validCoord (row col : Nat) : Bool := row < 3 && col < 3

/-- Flat index of a valid coordinate, `row * 3 + col`. -/
def cellIdx (r c : Fin 3) : Fin 9 :=
  ⟨r.val * 3 + c.val, by have h1 := r.isLt; have h2 := c.isLt; omega⟩

/-- Total read at a coordinate already known to be in range. -/
def getF (g : Grid) (r c : Fin 3) : Color := g.colors (cellIdx r c)

/-- `Grid::get`: panics (`none`) unless `valid_coord(row, col)`. -/
def get? (g : Grid) (row col : Nat) : Option Color :=
  if h : row < 3 ∧ col < 3 then some (g.getF ⟨row, h.1⟩ ⟨col, h.2⟩) else none

/-- Total write at a coordinate already known to be in range. -/
def setF (g : Grid) (r c : Fin 3) (v : Color) : Grid :=
  ⟨fun i => if i = cellIdx r c then v else g.colors i⟩

/-- `Grid::get_mut` followed by an assignment: panics (`none`) unless
`valid_coord(row, col)`. -/
def set? (g : Grid) (row col : Nat) (v : Color) : Option Grid :=
  if h : row < 3 ∧ col < 3 then some (g.setF ⟨row, h.1⟩ ⟨col, h.2⟩ v) else none

/-- `Grid::from_rows`, the convenience constructor: rows are listed top
(row 2) first, and stored bottom row first. -/
def fromRows (r2 r1 r0 : List Color) : Grid :=
  ⟨fun i => ((r0 ++ r1) ++ r2).getD i.val Color.Gray⟩

/-- `Grid::is_solved`: the four corner tiles match `goals` in the order
NW = (2,0), NE = (2,2), SW = (0,0), SE = (0,2). -/
def isSolved (g : Grid) (goals : Fin 4 → Color) : Bool :=
  g.get? 2 0 == some (goals 0) && g.get? 2 2 == some (goals 1)
    && g.get? 0 0 == some (goals 2) && g.get? 0 2 == some (goals 3)

/-- The eight compass offsets of `Grid::neighbours_clockwise`, in source
order: starting from `(1, 0)` and going through the ring. -/
def offsetsRing : List (Int × Int) :=
  [(1, 0), (1, -1), (0, -1), (-1, -1), (-1, 0), (-1, 1), (0, 1), (1, 1)]

/-- `Grid::neighbours_clockwise`: panics (`none`) on an invalid coordinate,
otherwise keeps, in offset order, each offset target that stays on the board
(the Rust `checked_add_signed … unwrap_or(usize::MAX)` dance is an
in-bounds test on the signed sum). -/
def neighboursRing? (row col : Nat) : Option (List (Nat × Nat)) :=
  if row < 3 ∧ col < 3 then
    some (offsetsRing.filterMap (fun dd =>
      if 0 ≤ (row : Int) + dd.1 ∧ (row : Int) + dd.1 < 3
          ∧ 0 ≤ (col : Int) + dd.2 ∧ (col : Int) + dd.2 < 3 then
        some (((row : Int) + dd.1).toNat, ((col : Int) + dd.2).toNat)
      else none))
  else none

/-- The arms of `Grid::apply_color` other than `Blue`.  The Rust `Blue` arm
recurses exactly once, guarded to pass a non-`Blue` color, so `applyColor`
below expresses that single level by delegating here; the `Blue` case of this
function is unreachable from `applyColor` and returns the untouched copy,
like the guarded Rust code. -/
def applyColorRules (g : Grid) (color : Color) (row col : Nat) : Option Grid :=
  match color with
  | Color.Gray => some g
  | Color.White => do
      let adjacent : List (Nat × Nat) :=
        [(row, col)]
          ++ (if row > 0 then [(row - 1, col)] else [])
          ++ (if row < 2 then [(row + 1, col)] else [])
          ++ (if col > 0 then [(row, col - 1)] else [])
          ++ (if col < 2 then [(row, col + 1)] else [])
      adjacent.foldlM (fun copy rc => do
        match ← g.get? rc.1 rc.2 with
        | Color.White => copy.set? rc.1 rc.2 Color.Gray
        | Color.Gray => copy.set? rc.1 rc.2 Color.White
        | _ => some copy) g
  | Color.Black =>
      (List.range 3).foldlM (fun copy c => do
        let v ← g.get? row c
        copy.set? row ((c + 1) % 3) v) g
  | Color.Red =>
      (List.range 3).foldlM (fun copy r =>
        (List.range 3).foldlM (fun copy c => do
          match ← g.get? r c with
          | Color.Black => copy.set? r c Color.Red
          | Color.White => copy.set? r c Color.Black
          | _ => some copy) copy) g
  | Color.Orange => do
      let adjacent : List (Nat × Nat) :=
        (if row > 0 then [(row - 1, col)] else [])
          ++ (if row < 2 then [(row + 1, col)] else [])
          ++ (if col > 0 then [(row, col - 1)] else [])
          ++ (if col < 2 then [(row, col + 1)] else [])
      let cs ← adjacent.mapM (fun rc => g.get? rc.1 rc.2)
      -- `counts: BTreeMap<Color, u8>` holds each distinct adjacent color with
      -- its multiplicity; `values().max()` and the unique-argmax test below do
      -- not depend on the map's key order, so the distinct colors are taken in
      -- first-occurrence order here.
      match ((cs.dedup).map (fun c => cs.count c)).max? with
      | none => none  -- `expect("map should never be empty")`
      | some mx =>
        match (cs.dedup).filter (fun c => cs.count c = mx) with
        | [majority] => g.set? row col majority
        | _ => some g
  | Color.Green => do
      let v1 ← g.get? row col
      let c1 ← g.set? (2 - row) (2 - col) v1
      let v2 ← g.get? (2 - row) (2 - col)
      c1.set? row col v2
  | Color.Yellow =>
      if row < 2 then do
        let v1 ← g.get? row col
        let c1 ← g.set? (row + 1) col v1
        let v2 ← g.get? (row + 1) col
        c1.set? row col v2
      else some g
  | Color.Violet =>
      if row > 0 then do
        let v1 ← g.get? row col
        let c1 ← g.set? (row - 1) col v1
        let v2 ← g.get? (row - 1) col
        c1.set? row col v2
      else some g
  | Color.Pink => do
      let ns ← neighboursRing? row col
      -- `windows(2)`: for consecutive ring entries the earlier one takes the
      -- later one's old color.
      let copy ← (ns.zip ns.tail).foldlM (fun copy ab => do
        let v ← g.get? ab.2.1 ab.2.2
        copy.set? ab.1.1 ab.1.2 v) g
      -- `neighbours[0]` / `neighbours.last().unwrap()`: panic on an empty ring.
      match ns, ns.getLast? with
      | f :: _, some l => do
        let v ← g.get? f.1 f.2
        copy.set? l.1 l.2 v
      | _, _ => none
  | Color.Blue => some g

/-- `Grid::apply_color`.  The `Blue` arm reads the centre tile and, unless the
centre is itself `Blue`, re-applies that color's rule to the same pre-press
grid (one level of substitution). -/
def applyColor (g : Grid) (color : Color) (row col : Nat) : Option Grid :=
  match color with
  | Color.Blue => do
      let middle ← g.get? 1 1
      if middle = Color.Blue then some g
      else g.applyColorRules middle row col
  | c => g.applyColorRules c row col

/-- `Grid::press`. -/
def press (g : Grid) (row col : Nat) : Option Grid := do
  let color ← g.get? row col
  g.applyColor color row col

end Grid

/-! ## The solver (`src/puzzle/src/solver.rs`) -/

namespace Solver

/-- A press coordinate, `(row, col)`. -/
abbrev Coord := Nat × Nat

/-- The nine presses the solver tries from every node, in loop order
(`for row in 0..3 { for col in 0..3 }`). -/
def pressMoves : List Coord :=
  [(0, 0), (0, 1), (0, 2), (1, 0), (1, 1), (1, 2), (2, 0), (2, 1), (2, 2)]

/-- `grid.press(row, col)` at the in-range coordinates the solver uses.  The
`getD` default is never taken: `press` succeeds on every valid coordinate
(`press_isSome_of_valid` below). -/
def pressD (g : Grid) (rc : Coord) : Grid := (g.press rc.1 rc.2).getD g

/-- The number of distinct grids, kept irreducible so the termination measure
below is never evaluated. -/
def gridCount : Nat := Fintype.card Grid

theorem card_le_gridCount (s : Finset Grid) : s.card ≤ gridCount :=
  Finset.card_le_univ s

attribute [irreducible] gridCount

/-- The BFS loop of `solve`: a FIFO queue of `(grid, path)` pairs and a seen
set of already-expanded grids.  Termination: each iteration either shortens
the queue (seen head) or adds a fresh grid to `seen`, and there are only
finitely many grids. -/
def bfs (goals : Fin 4 → Color) :
    List (Grid × List Coord) → Finset Grid → Option (List Coord)
  | [], _ => none
  | (g, path) :: rest, seen =>
    if hseen : g ∈ seen then
      bfs goals rest seen
    else if g.isSolved goals then
      some path
    else
      bfs goals (rest ++ pressMoves.map (fun rc => (pressD g rc, path ++ [rc])))
        (insert g seen)
termination_by queue seen => (gridCount - seen.card) * 10 + queue.length
decreasing_by
  · simp only [List.length_cons]
    omega
  · have h1 : (insert g seen).card = seen.card + 1 :=
      Finset.card_insert_of_not_mem hseen
    have h2 : (insert g seen).card ≤ gridCount := card_le_gridCount _
    have h3 : (rest ++ pressMoves.map (fun rc => (pressD g rc, path ++ [rc]))).length
        = rest.length + 9 := by
      simp [pressMoves]
    rw [h3, h1]
    simp only [List.length_cons]
    omega

/-- `solve` of `solver.rs`: BFS from the given grid, over an initially empty
seen set. -/
def solve (goals : Fin 4 → Color) (grid : Grid) : Option (List Coord) :=
  bfs goals [(grid, [])] ∅

end Solver

/-! ## The puzzle layer (`Puzzle` of `src/puzzle/src/puzzle.rs`) -/

/-- The `Corner` enum. -/
inductive Corner where
  | NE
  | SE
  | SW
  | NW
deriving DecidableEq, Repr, Fintype

/-- The `Puzzle` struct: goals, corner locks, the original (reset) snapshot
and the live state. -/
structure Puzzle where
  goals : Fin 4 → Color
  corners : Fin 4 → Color
  original : Grid
  state : Grid

instance : DecidableEq Puzzle := fun a b =>
  decidable_of_iff
    ((∀ i, a.goals i = b.goals i) ∧ (∀ i, a.corners i = b.corners i)
      ∧ a.original = b.original ∧ a.state = b.state)
    (by
      constructor
      · intro h
        obtain ⟨h1, h2, h3, h4⟩ := h
        cases a; cases b
        simp only [Puzzle.mk.injEq]
        exact ⟨funext h1, funext h2, h3, h4⟩
      · intro h
        cases h
        exact ⟨fun _ => rfl, fun _ => rfl, rfl, rfl⟩)

namespace Puzzle

/-- `Puzzle::new`. -/
def new (goals : Fin 4 → Color) (grid : Grid) : Puzzle :=
  ⟨goals, fun _ => Color.Gray, grid, grid⟩

/-- `Puzzle::current_state`. -/
def currentState (p : Puzzle) : Grid := p.state

/-- `Puzzle::goal`: the goals array is indexed NW, NE, SW, SE. -/
def goal (p : Puzzle) : Corner → Color
  | Corner.NW => p.goals 0
  | Corner.NE => p.goals 1
  | Corner.SW => p.goals 2
  | Corner.SE => p.goals 3

/-- The index `Puzzle::get_corner` and `Puzzle::get_corner_mut` use into the
corners array: SW, NW, SE, NE. -/
def cornerIdx : Corner → Fin 4
  | Corner.SW => 0
  | Corner.NW => 1
  | Corner.SE => 2
  | Corner.NE => 3

/-- `Puzzle::get_corner`. -/
def getCorner (p : Puzzle) (corner : Corner) : Color := p.corners (cornerIdx corner)

/-- `Puzzle::get_corner_mut` followed by an assignment. -/
def setCorner (p : Puzzle) (corner : Corner) (v : Color) : Puzzle :=
  { p with corners := fun i => if i = cornerIdx corner then v else p.corners i }

/-- `Puzzle::is_solved`: compares the corners array with the goals array
index for index. -/
def isSolved (p : Puzzle) : Bool := decide (∀ i, p.corners i = p.goals i)

/-- `Puzzle::corner_to_tile`. -/
def cornerToTile : Corner → Fin 3 × Fin 3
  | Corner.NE => (2, 2)
  | Corner.SE => (0, 2)
  | Corner.SW => (0, 0)
  | Corner.NW => (2, 0)

/-- `Puzzle::get_tile` (panics on an invalid coordinate, like `Grid::get`). -/
def getTile? (p : Puzzle) (row col : Nat) : Option Color :=
  p.currentState.get? row col

/-- `Puzzle::get_tile` at a corner's fixed tile, which is always in range. -/
def getTileAt (p : Puzzle) (rc : Fin 3 × Fin 3) : Color :=
  p.state.getF rc.1 rc.2

/-- `Puzzle::reset`. -/
def reset (p : Puzzle) : Puzzle :=
  { p with corners := fun _ => Color.Gray, state := p.original }

/-- One iteration of the corner-fixup loop in `Puzzle::press_tile`: reset
the lock to Gray when the tile no longer shows the locked color. -/
def fixupCorner (q : Puzzle) (corner : Corner) : Puzzle :=
  if q.getTileAt (cornerToTile corner) ≠ q.getCorner corner then
    q.setCorner corner Color.Gray
  else q

/-- `Puzzle::press_tile`: press on the live grid (propagating its panic),
then reset to Gray every corner lock whose tile no longer shows the locked
color, in loop order NE, SE, NW, SW. -/
def pressTile (p : Puzzle) (row col : Nat) : Option Puzzle := do
  let s ← p.state.press row col
  some ([Corner.NE, Corner.SE, Corner.NW, Corner.SW].foldl fixupCorner
    { p with state := s })

/-- `Puzzle::press_corner`: lock the corner if its tile shows the goal color,
otherwise reset the whole puzzle. -/
def pressCorner (p : Puzzle) (corner : Corner) : Puzzle :=
  let color := p.getTileAt (cornerToTile corner)
  if color = p.goal corner then p.setCorner corner color
  else p.reset

/-- `Puzzle::solve`: searches from the goals and the original snapshot. -/
def solve (p : Puzzle) : Option (List Solver.Coord) :=
  Solver.solve p.goals p.original

end Puzzle

/-- One interactive operation on a puzzle: the only mutators are
`press_tile` and `press_corner` (`main.rs` drives exactly these). -/
inductive Op where
  | tile (row col : Nat)
  | corner (c : Corner)

/-- Apply one operation; a `press_tile` panic is `none`. -/
def applyOp (p : Puzzle) : Op → Option Puzzle
  | Op.tile row col => p.pressTile row col
  | Op.corner c => some (p.pressCorner c)

/-- Apply a sequence of operations in order. -/
def applyOps (p : Puzzle) (ops : List Op) : Option Puzzle :=
  ops.foldlM applyOp p

/-! ## Basic facts about the cell accessors -/

namespace Grid

theorem get?_eq (g : Grid) {row col : Nat} (h1 : row < 3) (h2 : col < 3) :
    g.get? row col = some (g.getF ⟨row, h1⟩ ⟨col, h2⟩) := by
  simp [get?, h1, h2]

theorem get?_val (g : Grid) (r c : Fin 3) :
    g.get? r.val c.val = some (g.getF r c) :=
  get?_eq g r.isLt c.isLt

theorem set?_eq (g : Grid) {row col : Nat} (h1 : row < 3) (h2 : col < 3) (v : Color) :
    g.set? row col v = some (g.setF ⟨row, h1⟩ ⟨col, h2⟩ v) := by
  simp [set?, h1, h2]

theorem set?_val (g : Grid) (r c : Fin 3) (v : Color) :
    g.set? r.val c.val v = some (g.setF r c v) :=
  set?_eq g r.isLt c.isLt v

theorem get?_eq_none_iff (g : Grid) (row col : Nat) :
    g.get? row col = none ↔ 3 ≤ row ∨ 3 ≤ col := by
  unfold get?
  split
  · rename_i h
    simp only [reduceCtorEq, false_iff]
    omega
  · rename_i h
    simp only [true_iff]
    omega

end Grid

/-! ## The press operation never panics on a valid coordinate -/

theorem foldlM_option_isSome {α β : Type} (f : β → α → Option β) (l : List α) (b : β)
    (h : ∀ b' a, a ∈ l → (f b' a).isSome) : (l.foldlM f b).isSome := by
  induction l generalizing b with
  | nil => simp
  | cons a as ih =>
    rw [List.foldlM_cons]
    obtain ⟨b1, hb1⟩ := Option.isSome_iff_exists.mp (h b a (List.mem_cons_self a as))
    rw [hb1]
    simpa using ih b1 (fun b' a' ha' => h b' a' (List.mem_cons_of_mem a ha'))

theorem mapM_option_some {α β : Type} (f : α → Option β) (l : List α)
    (h : ∀ a ∈ l, (f a).isSome) :
    ∃ ys, l.mapM f = some ys ∧ ys.length = l.length := by
  induction l with
  | nil => exact ⟨[], rfl, rfl⟩
  | cons a as ih =>
    obtain ⟨y, hy⟩ := Option.isSome_iff_exists.mp (h a (List.mem_cons_self a as))
    obtain ⟨ys, hys, hlen⟩ := ih (fun a' ha' => h a' (List.mem_cons_of_mem a ha'))
    refine ⟨y :: ys, ?_, by simp [hlen]⟩
    rw [List.mapM_cons, hy, hys]
    rfl

theorem mem_of_mem_ite_nil {α : Type} {c : Prop} [Decidable c] {l : List α} {a : α}
    (h : a ∈ if c then l else []) : c ∧ a ∈ l := by
  by_cases hc : c
  · rw [if_pos hc] at h
    exact ⟨hc, h⟩
  · rw [if_neg hc] at h
    cases h

theorem neighboursRing?_mem_valid {row col : Nat} {ns : List (Nat × Nat)}
    (hns : Grid.neighboursRing? row col = some ns) :
    ∀ rc ∈ ns, rc.1 < 3 ∧ rc.2 < 3 := by
  unfold Grid.neighboursRing? at hns
  split at hns
  · cases hns
    intro rc hrc
    simp only [List.mem_filterMap] at hrc
    obtain ⟨dd, _, hdd⟩ := hrc
    split at hdd
    · rename_i hcond
      cases hdd
      refine ⟨?_, ?_⟩ <;> omega
    · cases hdd
  · cases hns

theorem neighboursRing?_of_valid {row col : Nat} (h1 : row < 3) (h2 : col < 3) :
    ∃ ns, Grid.neighboursRing? row col = some ns ∧ ns ≠ [] := by
  refine ⟨_, by rw [Grid.neighboursRing?, if_pos ⟨h1, h2⟩], ?_⟩
  intro hnil
  rw [List.filterMap_eq_nil_iff] at hnil
  by_cases hr : row < 2
  · have hx := hnil (1, 0) (by simp [Grid.offsetsRing])
    rw [if_pos ⟨by omega, by omega, by omega, by omega⟩] at hx
    cases hx
  · have hx := hnil (-1, 0) (by simp [Grid.offsetsRing])
    rw [if_pos ⟨by omega, by omega, by omega, by omega⟩] at hx
    cases hx

theorem applyColorRules_isSome (g : Grid) (color : Color) {row col : Nat}
    (h1 : row < 3) (h2 : col < 3) : (g.applyColorRules color row col).isSome := by
  cases color with
  | Gray => simp [Grid.applyColorRules]
  | Blue => simp [Grid.applyColorRules]
  | White =>
    simp only [Grid.applyColorRules]
    apply foldlM_option_isSome
    intro b a ha
    have hv : a.1 < 3 ∧ a.2 < 3 := by
      simp only [List.mem_append, List.mem_singleton] at ha
      rcases ha with (((ha | ha) | ha) | ha) | ha
      · subst ha
        exact ⟨h1, h2⟩
      all_goals
        obtain ⟨hc, ha⟩ := mem_of_mem_ite_nil ha
        rw [List.mem_singleton] at ha
        subst ha
        exact ⟨by omega, by omega⟩
    rw [Grid.get?_eq g hv.1 hv.2]
    simp only [Option.bind_eq_bind, Option.some_bind]
    cases g.getF ⟨a.1, hv.1⟩ ⟨a.2, hv.2⟩ <;> simp [Grid.set?, hv.1, hv.2]
  | Black =>
    simp only [Grid.applyColorRules]
    apply foldlM_option_isSome
    intro b a ha
    rw [List.mem_range] at ha
    rw [Grid.get?_eq g h1 ha]
    simp only [Option.bind_eq_bind, Option.some_bind]
    have hm : (a + 1) % 3 < 3 := Nat.mod_lt _ (by omega)
    simp [Grid.set?, h1, hm]
  | Red =>
    simp only [Grid.applyColorRules]
    apply foldlM_option_isSome
    intro b r hr
    rw [List.mem_range] at hr
    apply foldlM_option_isSome
    intro b' c hc
    rw [List.mem_range] at hc
    rw [Grid.get?_eq g hr hc]
    simp only [Option.bind_eq_bind, Option.some_bind]
    cases g.getF ⟨r, hr⟩ ⟨c, hc⟩ <;> simp [Grid.set?, hr, hc]
  | Orange =>
    simp only [Grid.applyColorRules]
    have hadj : ∀ a ∈ ((if row > 0 then [(row - 1, col)] else [])
        ++ (if row < 2 then [(row + 1, col)] else [])
        ++ (if col > 0 then [(row, col - 1)] else [])
        ++ (if col < 2 then [(row, col + 1)] else [])), a.1 < 3 ∧ a.2 < 3 := by
      intro a ha
      simp only [List.mem_append] at ha
      rcases ha with ((ha | ha) | ha) | ha
      all_goals
        obtain ⟨hc, ha⟩ := mem_of_mem_ite_nil ha
        rw [List.mem_singleton] at ha
        subst ha
        exact ⟨by omega, by omega⟩
    have hne : ((if row > 0 then [(row - 1, col)] else [])
        ++ (if row < 2 then [(row + 1, col)] else [])
        ++ (if col > 0 then [(row, col - 1)] else [])
        ++ (if col < 2 then [(row, col + 1)] else [])) ≠ [] := by
      intro hnil
      simp only [List.append_eq_nil] at hnil
      obtain ⟨⟨⟨ha1, ha2⟩, ha3⟩, ha4⟩ := hnil
      by_cases hr : row > 0
      · rw [if_pos hr] at ha1
        cases ha1
      · rw [if_pos (by omega : row < 2)] at ha2
        cases ha2
    obtain ⟨cs, hcs, hlen⟩ := mapM_option_some (fun rc => g.get? rc.1 rc.2)
      ((if row > 0 then [(row - 1, col)] else [])
        ++ (if row < 2 then [(row + 1, col)] else [])
        ++ (if col > 0 then [(row, col - 1)] else [])
        ++ (if col < 2 then [(row, col + 1)] else []))
      (fun a ha => by
        show (g.get? a.1 a.2).isSome = true
        rw [Grid.get?_eq g (hadj a ha).1 (hadj a ha).2]
        rfl)
    rw [hcs]
    simp only [Option.bind_eq_bind, Option.some_bind]
    have hcsne : cs ≠ [] := by
      intro hnil
      apply hne
      have := hlen
      rw [hnil] at this
      exact List.length_eq_zero.mp this.symm
    split
    · rename_i hnone
      rw [List.max?_eq_none_iff, List.map_eq_nil_iff, List.dedup_eq_nil] at hnone
      exact absurd hnone hcsne
    · split
      · simp [Grid.set?, h1, h2]
      · simp
  | Green =>
    simp only [Grid.applyColorRules]
    have h3 : 2 - row < 3 := by omega
    have h4 : 2 - col < 3 := by omega
    rw [Grid.get?_eq g h1 h2]
    simp only [Option.bind_eq_bind, Option.some_bind]
    rw [Grid.set?_eq g h3 h4]
    simp only [Option.bind_eq_bind, Option.some_bind]
    rw [Grid.get?_eq g h3 h4]
    simp only [Option.bind_eq_bind, Option.some_bind]
    simp [Grid.set?, h1, h2]
  | Yellow =>
    simp only [Grid.applyColorRules]
    by_cases hr : row < 2
    · rw [if_pos hr]
      have h3 : row + 1 < 3 := by omega
      rw [Grid.get?_eq g h1 h2]
      simp only [Option.bind_eq_bind, Option.some_bind]
      rw [Grid.set?_eq g h3 h2]
      simp only [Option.bind_eq_bind, Option.some_bind]
      rw [Grid.get?_eq g h3 h2]
      simp only [Option.bind_eq_bind, Option.some_bind]
      simp [Grid.set?, h1, h2]
    · rw [if_neg hr]
      rfl
  | Violet =>
    simp only [Grid.applyColorRules]
    by_cases hr : row > 0
    · rw [if_pos hr]
      have h3 : row - 1 < 3 := by omega
      rw [Grid.get?_eq g h1 h2]
      simp only [Option.bind_eq_bind, Option.some_bind]
      rw [Grid.set?_eq g h3 h2]
      simp only [Option.bind_eq_bind, Option.some_bind]
      rw [Grid.get?_eq g h3 h2]
      simp only [Option.bind_eq_bind, Option.some_bind]
      simp [Grid.set?, h1, h2]
    · rw [if_neg hr]
      rfl
  | Pink =>
    simp only [Grid.applyColorRules]
    obtain ⟨ns, hns, hne⟩ := neighboursRing?_of_valid h1 h2
    rw [hns]
    simp only [Option.bind_eq_bind, Option.some_bind]
    have hval := neighboursRing?_mem_valid hns
    have hfold : ((ns.zip ns.tail).foldlM (fun (copy : Grid) (ab : (Nat × Nat) × (Nat × Nat)) =>
        (g.get? ab.2.1 ab.2.2).bind fun v => copy.set? ab.1.1 ab.1.2 v) g).isSome := by
      apply foldlM_option_isSome
      intro b ab hab
      obtain ⟨x, y⟩ := ab
      obtain ⟨hx, hy⟩ := List.of_mem_zip hab
      have hyv := hval y (List.mem_of_mem_tail hy)
      have hxv := hval x hx
      show ((g.get? y.1 y.2).bind fun v => b.set? x.1 x.2 v).isSome = true
      rw [Grid.get?_eq g hyv.1 hyv.2]
      simp only [Option.some_bind]
      simp [Grid.set?, hxv.1, hxv.2]
    obtain ⟨copy, hcopy⟩ := Option.isSome_iff_exists.mp hfold
    rw [hcopy]
    simp only [Option.bind_eq_bind, Option.some_bind]
    rcases hns2 : ns with _ | ⟨f, rest⟩
    · exact absurd hns2 hne
    · rcases hlast : (f :: rest).getLast? with _ | l
      · rw [List.getLast?_eq_none_iff] at hlast
        cases hlast
      · have hfv : f.1 < 3 ∧ f.2 < 3 := by
          apply hval
          rw [hns2]
          exact List.mem_cons_self f rest
        have hlv : l.1 < 3 ∧ l.2 < 3 := by
          apply hval
          rw [hns2]
          exact List.mem_of_getLast?_eq_some hlast
        show ((g.get? f.1 f.2).bind fun v => copy.set? l.1 l.2 v).isSome = true
        rw [Grid.get?_eq g hfv.1 hfv.2]
        simp only [Option.some_bind]
        simp [Grid.set?, hlv.1, hlv.2]

theorem applyColor_isSome (g : Grid) (color : Color) {row col : Nat}
    (h1 : row < 3) (h2 : col < 3) : (g.applyColor color row col).isSome := by
  cases color with
  | Blue =>
    simp only [Grid.applyColor]
    rw [Grid.get?_eq g (by omega : (1 : Nat) < 3) (by omega : (1 : Nat) < 3)]
    simp only [Option.bind_eq_bind, Option.some_bind]
    split
    · rfl
    · exact applyColorRules_isSome g _ h1 h2
  | Gray =>
    simp only [Grid.applyColor]
    exact applyColorRules_isSome g _ h1 h2
  | White =>
    simp only [Grid.applyColor]
    exact applyColorRules_isSome g _ h1 h2
  | Black =>
    simp only [Grid.applyColor]
    exact applyColorRules_isSome g _ h1 h2
  | Red =>
    simp only [Grid.applyColor]
    exact applyColorRules_isSome g _ h1 h2
  | Orange =>
    simp only [Grid.applyColor]
    exact applyColorRules_isSome g _ h1 h2
  | Green =>
    simp only [Grid.applyColor]
    exact applyColorRules_isSome g _ h1 h2
  | Yellow =>
    simp only [Grid.applyColor]
    exact applyColorRules_isSome g _ h1 h2
  | Violet =>
    simp only [Grid.applyColor]
    exact applyColorRules_isSome g _ h1 h2
  | Pink =>
    simp only [Grid.applyColor]
    exact applyColorRules_isSome g _ h1 h2

theorem press_isSome_of_valid (g : Grid) {row col : Nat}
    (h1 : row < 3) (h2 : col < 3) : (g.press row col).isSome := by
  rw [Grid.press, Grid.get?_eq g h1 h2]
  simp only [Option.bind_eq_bind, Option.some_bind]
  exact applyColor_isSome g _ h1 h2

theorem press_eq_none_iff (g : Grid) (row col : Nat) :
    g.press row col = none ↔ 3 ≤ row ∨ 3 ≤ col := by
  constructor
  · intro h
    by_contra hv
    push_neg at hv
    have := press_isSome_of_valid g (by omega : row < 3) (by omega : col < 3)
    rw [h] at this
    cases this
  · intro h
    rw [Grid.press]
    have : g.get? row col = none := (Grid.get?_eq_none_iff g row col).mpr h
    rw [this]
    rfl

/-! ## Claim C8: panics happen exactly on invalid coordinates -/

/-- C8: `Grid::get` and `Grid::press` panic exactly when `row ≥ 3` or
`col ≥ 3`; on the nine valid coordinates `press` always returns a grid — in
particular the Orange rule's maximum and the Pink rule's first/last ring
accesses are over non-empty collections and every internal index is in
bounds. -/
theorem press_panics_iff_invalid (g : Grid) (row col : Nat) :
    (g.get? row col = none ↔ 3 ≤ row ∨ 3 ≤ col) ∧
    (g.press row col = none ↔ 3 ≤ row ∨ 3 ≤ col) :=
  ⟨Grid.get?_eq_none_iff g row col, press_eq_none_iff g row col⟩

/-! ## Claim C4: the Blue rule is a single level of indirection -/

theorem applyColor_of_ne_blue (g : Grid) (color : Color) (row col : Nat)
    (h : color ≠ Color.Blue) :
    g.applyColor color row col = g.applyColorRules color row col := by
  cases color
  case Blue => exact absurd rfl h
  all_goals rfl

/-- C4: pressing a Blue tile does nothing when the centre tile is Blue;
otherwise it applies the centre color's rule at the pressed coordinate, one
level deep (the dispatcher agrees with the plain rule table, so no second
substitution happens). -/
theorem blue_copies_center_once (g : Grid) (r c : Fin 3)
    (hb : g.getF r c = Color.Blue) :
    (g.getF 1 1 = Color.Blue → g.press r.val c.val = some g) ∧
    (g.getF 1 1 ≠ Color.Blue →
      g.press r.val c.val = g.applyColor (g.getF 1 1) r.val c.val ∧
      g.applyColor (g.getF 1 1) r.val c.val
        = g.applyColorRules (g.getF 1 1) r.val c.val) := by
  have hp : g.press r.val c.val = g.applyColor Color.Blue r.val c.val := by
    rw [Grid.press, Grid.get?_val g r c, hb]
    rfl
  have hblue : g.applyColor Color.Blue r.val c.val =
      if g.getF 1 1 = Color.Blue then some g
      else g.applyColorRules (g.getF 1 1) r.val c.val := by
    simp only [Grid.applyColor]
    rw [show g.get? 1 1 = some (g.getF 1 1) from rfl]
    simp only [Option.bind_eq_bind, Option.some_bind]
  constructor
  · intro hm
    rw [hp, hblue, if_pos hm]
  · intro hm
    refine ⟨?_, applyColor_of_ne_blue g _ _ _ hm⟩
    rw [hp, hblue, if_neg hm, applyColor_of_ne_blue g _ _ _ hm]

/-- Concrete fixture: a Blue tile at (2,0) with a Blue centre. -/
def blueBlueGrid : Grid :=
  Grid.fromRows [Color.Blue, Color.Gray, Color.Gray]
    [Color.Gray, Color.Blue, Color.Gray] [Color.Gray, Color.Gray, Color.Gray]

/-- Concrete fixture: a Blue tile at (2,0) with a Black centre. -/
def blueBlackGrid : Grid :=
  Grid.fromRows [Color.Blue, Color.Gray, Color.Gray]
    [Color.Gray, Color.Black, Color.Gray] [Color.Gray, Color.Gray, Color.Gray]

theorem blue_copies_center_once_witness :
    blueBlueGrid.press 2 0 = some blueBlueGrid ∧
    blueBlackGrid.press 2 0
      = blueBlackGrid.applyColor (blueBlackGrid.getF 1 1) 2 0 :=
  ⟨(blue_copies_center_once blueBlueGrid 2 0 (by decide)).1 (by decide),
    ((blue_copies_center_once blueBlackGrid 2 0 (by decide)).2 (by decide)).1⟩

/-! ## Claim C10: the Black rule rotates the pressed row, with period three -/

theorem grid_eq_of_getF {g1 g2 : Grid}
    (h : ∀ r c : Fin 3, g1.getF r c = g2.getF r c) : g1 = g2 := by
  cases g1; cases g2
  apply congrArg Grid.mk
  funext i
  have hx : i.val / 3 * 3 + i.val % 3 = i.val := by omega
  have := h ⟨i.val / 3, by omega⟩ ⟨i.val % 3, by omega⟩
  simpa [Grid.getF, Grid.cellIdx, hx] using this

theorem press_black_char (g : Grid) (row col : Nat) (h1 : row < 3) (h2 : col < 3)
    (hb : g.getF ⟨row, h1⟩ ⟨col, h2⟩ = Color.Black) :
    ∃ g2, g.press row col = some g2
      ∧ (∀ c2 : Fin 3, g2.getF ⟨row, h1⟩ (c2 + 1) = g.getF ⟨row, h1⟩ c2)
      ∧ (∀ r2 c2 : Fin 3, r2.val ≠ row → g2.getF r2 c2 = g.getF r2 c2) := by
  have hp : g.press row col = g.applyColorRules Color.Black row col := by
    rw [Grid.press, Grid.get?_eq g h1 h2, hb]
    rfl
  refine ⟨((g.setF ⟨row, h1⟩ 1 (g.getF ⟨row, h1⟩ 0)).setF ⟨row, h1⟩ 2
      (g.getF ⟨row, h1⟩ 1)).setF ⟨row, h1⟩ 0 (g.getF ⟨row, h1⟩ 2), ?_, ?_, ?_⟩
  · rw [hp]
    interval_cases row <;> rfl
  · intro c2
    interval_cases row <;> fin_cases c2 <;> rfl
  · intro r2 c2 hne
    interval_cases row <;> fin_cases r2 <;>
      first
        | exact absurd rfl hne
        | (fin_cases c2 <;> rfl)

/-- C10: pressing a tile holding Black replaces its row by a one-step right
rotation, `new[row][(c+1) % 3] = old[row][c]`, leaving every other row
unchanged; and from a grid whose row 0 is `[Black, White, Red]`, the presses
(0,0), (0,1), (0,2) — each landing on the tile currently holding Black —
return the grid to its original value. -/
theorem black_rotates_row_period_three :
    (∀ (g : Grid) (row col : Nat) (h1 : row < 3) (h2 : col < 3),
      g.getF ⟨row, h1⟩ ⟨col, h2⟩ = Color.Black →
      ∃ g2, g.press row col = some g2
        ∧ (∀ c2 : Fin 3, g2.getF ⟨row, h1⟩ (c2 + 1) = g.getF ⟨row, h1⟩ c2)
        ∧ (∀ r2 c2 : Fin 3, r2.val ≠ row → g2.getF r2 c2 = g.getF r2 c2)) ∧
    (∀ g : Grid, g.getF 0 0 = Color.Black → g.getF 0 1 = Color.White →
      g.getF 0 2 = Color.Red →
      ((g.press 0 0).bind (fun ga => ga.press 0 1)).bind (fun gb => gb.press 0 2)
        = some g) := by
  constructor
  · exact press_black_char
  · intro g hb hw hr
    obtain ⟨g1, hp1, hrow1, hoff1⟩ := press_black_char g 0 0 (by omega) (by omega) hb
    rw [hp1]
    simp only [Option.bind_eq_bind, Option.some_bind]
    have hb1 : g1.getF ⟨0, by omega⟩ ⟨1, by omega⟩ = Color.Black :=
      (hrow1 0).trans hb
    obtain ⟨g2, hp2, hrow2, hoff2⟩ := press_black_char g1 0 1 (by omega) (by omega) hb1
    rw [hp2]
    simp only [Option.bind_eq_bind, Option.some_bind]
    have hb2 : g2.getF ⟨0, by omega⟩ ⟨2, by omega⟩ = Color.Black :=
      (hrow2 1).trans hb1
    obtain ⟨g3, hp3, hrow3, hoff3⟩ := press_black_char g2 0 2 (by omega) (by omega) hb2
    rw [hp3]
    apply congrArg some
    apply grid_eq_of_getF
    intro r2 c2
    by_cases h0 : r2.val = 0
    · obtain ⟨rv, hlt⟩ := r2
      have h0' : rv = 0 := h0
      subst h0'
      fin_cases c2
      · exact (hrow3 2).trans ((hrow2 1).trans (hrow1 0))
      · exact (hrow3 0).trans ((hrow2 2).trans (hrow1 1))
      · exact (hrow3 1).trans ((hrow2 0).trans (hrow1 2))
    · rw [hoff3 r2 c2 h0, hoff2 r2 c2 h0, hoff1 r2 c2 h0]

/-! ## Claim C5: the Pink rule shifts ring values by one position -/

/-- C5 (amended): pressing a Pink tile rotates the colors of its existing
ring neighbours (orthogonal plus diagonal, off-board offsets skipped).  With
`ns` the ring in built order, each ring cell's new color is the old color of
the NEXT cell in the built list (`ns.rotate 1`), the first-listed cell's old
color wrapping to the last-listed cell; the pressed tile is not on the ring
and every cell off the ring keeps its color. -/
theorem pink_shifts_ring (g : Grid) (row col : Nat) (h1 : row < 3) (h2 : col < 3)
    (hp : g.getF ⟨row, h1⟩ ⟨col, h2⟩ = Color.Pink) :
    ∃ ns g2, Grid.neighboursRing? row col = some ns
      ∧ g.press row col = some g2
      ∧ (row, col) ∉ ns
      ∧ ns.map (fun rc => g2.get? rc.1 rc.2)
          = (ns.rotate 1).map (fun rc => g.get? rc.1 rc.2)
      ∧ (∀ rc : Nat × Nat, rc.1 < 3 → rc.2 < 3 → rc ∉ ns →
          g2.get? rc.1 rc.2 = g.get? rc.1 rc.2) := by
  have hpress : g.press row col = g.applyColorRules Color.Pink row col := by
    rw [Grid.press, Grid.get?_eq g h1 h2, hp]
    rfl
  interval_cases row <;> interval_cases col <;>
    refine ⟨_, _, rfl, hpress.trans (by rfl), by decide, by rfl, ?_⟩ <;>
    rintro ⟨a, b⟩ ha hb hmem <;>
    interval_cases a <;> interval_cases b <;>
      first
        | rfl
        | exact absurd (by decide) hmem

/-- Concrete fixture: centre Pink, all other tiles distinct. -/
def pinkCenterGrid : Grid :=
  Grid.fromRows [Color.White, Color.Black, Color.Red]
    [Color.Orange, Color.Pink, Color.Green]
    [Color.Yellow, Color.Violet, Color.Blue]

theorem pink_shifts_ring_witness :
    ∃ ns g2, Grid.neighboursRing? 1 1 = some ns
      ∧ pinkCenterGrid.press 1 1 = some g2
      ∧ (1, 1) ∉ ns
      ∧ ns.map (fun rc => g2.get? rc.1 rc.2)
          = (ns.rotate 1).map (fun rc => pinkCenterGrid.get? rc.1 rc.2)
      ∧ (∀ rc : Nat × Nat, rc.1 < 3 → rc.2 < 3 → rc ∉ ns →
          g2.get? rc.1 rc.2 = pinkCenterGrid.get? rc.1 rc.2) :=
  pink_shifts_ring pinkCenterGrid 1 1 (by omega) (by omega) (by decide)

/-- C5, the claim as frozen: with the ring listed in (asserted) clockwise
order, each neighbour's new color would be the old color of the PREVIOUS
cell in the list — values shifting forward, the last-listed cell's old color
wrapping to the first (`ns.rotate (ns.length - 1)`).  The code does the
opposite shift, so this fails on a concrete grid. -/
theorem pink_claim_counterexample :
    ∃ ns g2, Grid.neighboursRing? 1 1 = some ns
      ∧ pinkCenterGrid.press 1 1 = some g2
      ∧ ns.map (fun rc => g2.get? rc.1 rc.2)
          ≠ (ns.rotate (ns.length - 1)).map (fun rc => pinkCenterGrid.get? rc.1 rc.2) := by
  refine ⟨_, _, rfl, rfl, by decide⟩

/-! ## Puzzle layer: corner locks -/

theorem getCorner_setCorner (p : Puzzle) (c c2 : Corner) (v : Color) :
    (p.setCorner c v).getCorner c2 = if c2 = c then v else p.getCorner c2 := by
  cases c <;> cases c2 <;>
    simp [Puzzle.setCorner, Puzzle.getCorner, Puzzle.cornerIdx]

/-- C6: `press_corner` locks the pressed corner at its goal color when the
corner tile shows it, touching nothing else; otherwise it resets the whole
puzzle — live grid back to the original snapshot, all four locks Gray. -/
theorem press_corner_locks_or_resets (p : Puzzle) (c : Corner) :
    (p.getTileAt (Puzzle.cornerToTile c) = p.goal c →
      (p.pressCorner c).getCorner c = p.goal c
      ∧ (∀ c2, c2 ≠ c → (p.pressCorner c).getCorner c2 = p.getCorner c2)
      ∧ (p.pressCorner c).state = p.state
      ∧ (p.pressCorner c).original = p.original
      ∧ (p.pressCorner c).goals = p.goals) ∧
    (p.getTileAt (Puzzle.cornerToTile c) ≠ p.goal c →
      (p.pressCorner c).state = p.original
      ∧ (∀ c2, (p.pressCorner c).getCorner c2 = Color.Gray)
      ∧ (p.pressCorner c).original = p.original
      ∧ (p.pressCorner c).goals = p.goals) := by
  constructor
  · intro h
    simp only [Puzzle.pressCorner]
    rw [if_pos h]
    refine ⟨?_, ?_, rfl, rfl, rfl⟩
    · rw [getCorner_setCorner, if_pos rfl, h]
    · intro c2 hne
      rw [getCorner_setCorner, if_neg hne]
  · intro h
    simp only [Puzzle.pressCorner]
    rw [if_neg h]
    exact ⟨rfl, fun c2 => rfl, rfl, rfl⟩

/-! ## Reachable-state invariant of the corner locks (C3) -/

theorem fixup_fold_corner_inv (l : List Corner) (p : Puzzle)
    (hp : ∀ c, p.getCorner c = Color.Gray ∨ p.getCorner c = p.goal c) :
    ∀ c, (l.foldl Puzzle.fixupCorner p).getCorner c = Color.Gray
      ∨ (l.foldl Puzzle.fixupCorner p).getCorner c
          = (l.foldl Puzzle.fixupCorner p).goal c := by
  induction l generalizing p with
  | nil => exact hp
  | cons c0 rest ih =>
    rw [List.foldl_cons]
    apply ih
    intro c
    rw [Puzzle.fixupCorner]
    split
    · rw [getCorner_setCorner]
      by_cases hc : c = c0
      · rw [if_pos hc]
        left
        rfl
      · rw [if_neg hc]
        exact hp c
    · exact hp c

theorem applyOp_corner_inv {p q : Puzzle} {op : Op} (h : applyOp p op = some q)
    (hp : ∀ c, p.getCorner c = Color.Gray ∨ p.getCorner c = p.goal c) :
    ∀ c, q.getCorner c = Color.Gray ∨ q.getCorner c = q.goal c := by
  cases op with
  | corner c0 =>
    have hq : p.pressCorner c0 = q := Option.some.inj h
    subst hq
    intro c
    by_cases hcond : p.getTileAt (Puzzle.cornerToTile c0) = p.goal c0
    · simp only [Puzzle.pressCorner]
      rw [if_pos hcond, getCorner_setCorner]
      by_cases hc : c = c0
      · rw [if_pos hc, hcond, hc]
        right
        rfl
      · rw [if_neg hc]
        exact hp c
    · simp only [Puzzle.pressCorner]
      rw [if_neg hcond]
      left
      rfl
  | tile row col =>
    simp only [applyOp, Puzzle.pressTile] at h
    rw [Option.bind_eq_bind] at h
    obtain ⟨s, hs, hq⟩ := Option.bind_eq_some.mp h
    have hq2 := Option.some.inj hq
    subst hq2
    exact fixup_fold_corner_inv _ _ hp

theorem applyOps_corner_inv {p q : Puzzle} {ops : List Op}
    (h : applyOps p ops = some q)
    (hp : ∀ c, p.getCorner c = Color.Gray ∨ p.getCorner c = p.goal c) :
    ∀ c, q.getCorner c = Color.Gray ∨ q.getCorner c = q.goal c := by
  induction ops generalizing p with
  | nil =>
    have : p = q := Option.some.inj h
    subst this
    exact hp
  | cons op rest ih =>
    rw [applyOps, List.foldlM_cons, Option.bind_eq_bind] at h
    obtain ⟨p1, hp1, hrest⟩ := Option.bind_eq_some.mp h
    exact ih hrest (applyOp_corner_inv hp1 hp)

/-- C3 (amended): in every state reachable from `Puzzle::new` by presses,
each corner's lock — read through `get_corner`, the same indexing
`press_corner` writes through — is either Gray or that corner's goal as read
through `goal`.  (The claim's per-array-index form `corners[i] ∈ {Gray,
goals[i]}` fails because `get_corner` and `goal` index the two arrays in
different corner orders; see the counterexample.) -/
theorem corner_locks_gray_or_goal (goals : Fin 4 → Color) (grid : Grid)
    (ops : List Op) (q : Puzzle)
    (h : applyOps (Puzzle.new goals grid) ops = some q) :
    ∀ c, q.getCorner c = Color.Gray ∨ q.getCorner c = q.goal c :=
  applyOps_corner_inv h (fun _ => Or.inl rfl)

/-- Goals for the concrete bug fixtures: NW White, NE Black, SW Red,
SE Orange — four distinct colors. -/
def bugGoals : Fin 4 → Color := fun i =>
  if i.val = 0 then Color.White
  else if i.val = 1 then Color.Black
  else if i.val = 2 then Color.Red
  else Color.Orange

/-- A grid whose four corner tiles already show the four goal colors. -/
def bugGrid : Grid :=
  Grid.fromRows [Color.White, Color.Gray, Color.Black]
    [Color.Gray, Color.Gray, Color.Gray]
    [Color.Red, Color.Gray, Color.Orange]

/-- The reachable state after one correct SW corner press. -/
def bugPuzzleSW : Puzzle := (Puzzle.new bugGoals bugGrid).pressCorner Corner.SW

/-- C3, the claim as frozen, is false: after a correct SW corner press the
lock array holds `corners[0] = Red`, which is neither Gray nor
`goals[0] = White`. -/
theorem corner_lock_index_counterexample :
    applyOps (Puzzle.new bugGoals bugGrid) [Op.corner Corner.SW] = some bugPuzzleSW
      ∧ bugPuzzleSW.corners 0 ≠ Color.Gray
      ∧ bugPuzzleSW.corners 0 ≠ bugPuzzleSW.goals 0 :=
  ⟨rfl, by decide, by decide⟩

theorem corner_locks_gray_or_goal_witness :
    (bugPuzzleSW.getCorner Corner.SW = Color.Gray
      ∨ bugPuzzleSW.getCorner Corner.SW = bugPuzzleSW.goal Corner.SW)
    ∧ (bugPuzzleSW.getCorner Corner.NW = Color.Gray
      ∨ bugPuzzleSW.getCorner Corner.NW = bugPuzzleSW.goal Corner.NW) :=
  ⟨corner_locks_gray_or_goal bugGoals bugGrid [Op.corner Corner.SW] bugPuzzleSW rfl
      Corner.SW,
    corner_locks_gray_or_goal bugGoals bugGrid [Op.corner Corner.SW] bugPuzzleSW rfl
      Corner.NW⟩

/-! ## Claim C2: the `Puzzle::is_solved` index mismatch (code bug) -/

/-- C2 evidence: with the four distinct goals of `bugGoals`, pressing all
four corners (each tile showing its goal, so each press locks) reaches a
state where every corner's lock equals that corner's goal, yet
`Puzzle::is_solved` returns `false`: it compares `corners` (indexed SW, NW,
SE, NE by `get_corner`/`get_corner_mut`) against `goals` (indexed NW, NE,
SW, SE by `goal`) position by position. -/
theorem is_solved_index_mismatch :
    ∃ q, applyOps (Puzzle.new bugGoals bugGrid)
        [Op.corner Corner.NW, Op.corner Corner.NE, Op.corner Corner.SW,
          Op.corner Corner.SE] = some q
      ∧ q.getCorner Corner.NW = q.goal Corner.NW
      ∧ q.getCorner Corner.NE = q.goal Corner.NE
      ∧ q.getCorner Corner.SW = q.goal Corner.SW
      ∧ q.getCorner Corner.SE = q.goal Corner.SE
      ∧ q.isSolved = false := by
  refine ⟨_, rfl, by decide, by decide, by decide, by decide, by decide⟩

/-! ## Claim C9: presses never touch `original` or `goals` -/

theorem fixup_fold_core (l : List Corner) (p : Puzzle) :
    (l.foldl Puzzle.fixupCorner p).original = p.original
      ∧ (l.foldl Puzzle.fixupCorner p).goals = p.goals := by
  induction l generalizing p with
  | nil => exact ⟨rfl, rfl⟩
  | cons c0 rest ih =>
    rw [List.foldl_cons]
    refine ⟨(ih _).1.trans ?_, (ih _).2.trans ?_⟩
    · rw [Puzzle.fixupCorner]
      split <;> rfl
    · rw [Puzzle.fixupCorner]
      split <;> rfl

theorem applyOp_preserves_core {p q : Puzzle} {op : Op} (h : applyOp p op = some q) :
    q.original = p.original ∧ q.goals = p.goals := by
  cases op with
  | corner c0 =>
    have hq : p.pressCorner c0 = q := Option.some.inj h
    subst hq
    simp only [Puzzle.pressCorner]
    split <;> exact ⟨rfl, rfl⟩
  | tile row col =>
    simp only [applyOp, Puzzle.pressTile] at h
    rw [Option.bind_eq_bind] at h
    obtain ⟨s, hs, hq⟩ := Option.bind_eq_some.mp h
    have hq2 := Option.some.inj hq
    subst hq2
    exact fixup_fold_core _ _

/-- C9: no sequence of `press_tile` / `press_corner` operations ever changes
a puzzle's `original` snapshot or its `goals`; consequently `Puzzle::solve`,
which searches from `goals` and `original`, answers the same after any such
sequence as at construction. -/
theorem ops_preserve_original_goals_solve (p : Puzzle) (ops : List Op) (q : Puzzle)
    (h : applyOps p ops = some q) :
    q.original = p.original ∧ q.goals = p.goals ∧ q.solve = p.solve := by
  induction ops generalizing p with
  | nil =>
    have : p = q := Option.some.inj h
    subst this
    exact ⟨rfl, rfl, rfl⟩
  | cons op rest ih =>
    rw [applyOps, List.foldlM_cons, Option.bind_eq_bind] at h
    obtain ⟨p1, hp1, hrest⟩ := Option.bind_eq_some.mp h
    obtain ⟨ho, hg, hs⟩ := ih p1 hrest
    obtain ⟨ho1, hg1⟩ := applyOp_preserves_core hp1
    refine ⟨ho.trans ho1, hg.trans hg1, hs.trans ?_⟩
    rw [Puzzle.solve, Puzzle.solve, ho1, hg1]

theorem ops_preserve_witness :
    bugPuzzleSW.original = (Puzzle.new bugGoals bugGrid).original
    ∧ bugPuzzleSW.goals = (Puzzle.new bugGoals bugGrid).goals
    ∧ bugPuzzleSW.solve = (Puzzle.new bugGoals bugGrid).solve :=
  ops_preserve_original_goals_solve (Puzzle.new bugGoals bugGrid)
    [Op.corner Corner.SW] bugPuzzleSW rfl

/-! ## BFS correctness (C1, C7) -/

namespace Solver

/-- A press path is valid when every coordinate is on the board. -/
def validPath (p : List Coord) : Prop := ∀ rc ∈ p, rc.1 < 3 ∧ rc.2 < 3

/-- Apply a sequence of presses in order. -/
def applyPath (g : Grid) : List Coord → Grid
  | [] => g
  | rc :: rest => applyPath (pressD g rc) rest

/-- `x` is reachable from `g0` by a valid press sequence of length `n`. -/
def reachIn (g0 : Grid) (n : Nat) (x : Grid) : Prop :=
  ∃ q, validPath q ∧ q.length = n ∧ applyPath g0 q = x

theorem mem_pressMoves_iff {rc : Coord} : rc ∈ pressMoves ↔ rc.1 < 3 ∧ rc.2 < 3 := by
  obtain ⟨a, b⟩ := rc
  simp only [pressMoves, List.mem_cons, List.not_mem_nil, or_false, Prod.mk.injEq]
  omega

theorem applyPath_append (g : Grid) (q r : List Coord) :
    applyPath g (q ++ r) = applyPath (applyPath g q) r := by
  induction q generalizing g with
  | nil => rfl
  | cons rc rest ih =>
    rw [List.cons_append, applyPath, applyPath]
    exact ih _

/-- The loop invariant of the BFS: every queue entry is the grid its path
reaches; paths are enqueued in non-decreasing length order and span at most
two consecutive lengths; no expanded grid is a goal grid; every reachable
grid is expanded or covered by a queue entry within its distance; and every
press out of an expanded grid is expanded or enqueued one level deeper. -/
structure BfsInv (goals : Fin 4 → Color) (g0 : Grid)
    (queue : List (Grid × List Coord)) (seen : Finset Grid) : Prop where
  entries : ∀ e ∈ queue, validPath e.2 ∧ applyPath g0 e.2 = e.1
  sorted : List.Pairwise (fun e1 e2 => e1.2.length ≤ e2.2.length) queue
  twoLevels : ∀ e1 ∈ queue, ∀ e2 ∈ queue, e1.2.length ≤ e2.2.length + 1
  seenNotSolved : ∀ s ∈ seen, s.isSolved goals = false
  coverage : ∀ n x, reachIn g0 n x → x ∈ seen ∨
    ∃ e ∈ queue, ∃ r, validPath r ∧ applyPath e.1 r = x ∧ e.2.length + r.length ≤ n
  seenStep : ∀ s ∈ seen, ∀ n, reachIn g0 n s → ∀ rc ∈ pressMoves,
    pressD s rc ∈ seen ∨ ∃ p2, (pressD s rc, p2) ∈ queue ∧ p2.length ≤ n + 1

/-- What `bfs` computes: a valid shortest path to a goal grid, or a proof
that no valid path reaches one. -/
def BfsGood (goals : Fin 4 → Color) (g0 : Grid) : Option (List Coord) → Prop
  | some path => validPath path ∧ (applyPath g0 path).isSolved goals = true ∧
      ∀ q, validPath q → (applyPath g0 q).isSolved goals = true → path.length ≤ q.length
  | none => ∀ q, validPath q → (applyPath g0 q).isSolved goals = false

theorem bfs_nil (goals : Fin 4 → Color) (seen : Finset Grid) :
    bfs goals [] seen = none := by
  rw [bfs.eq_def]

theorem bfs_cons_seen {goals : Fin 4 → Color} {g : Grid} {path : List Coord}
    {rest : List (Grid × List Coord)} {seen : Finset Grid} (hg : g ∈ seen) :
    bfs goals ((g, path) :: rest) seen = bfs goals rest seen := by
  rw [bfs.eq_def]
  exact dif_pos hg

theorem bfs_cons_solved {goals : Fin 4 → Color} {g : Grid} {path : List Coord}
    {rest : List (Grid × List Coord)} {seen : Finset Grid} (hg : g ∉ seen)
    (hsol : g.isSolved goals = true) :
    bfs goals ((g, path) :: rest) seen = some path := by
  rw [bfs.eq_def]
  exact (dif_neg hg).trans (if_pos hsol)

theorem bfs_cons_step {goals : Fin 4 → Color} {g : Grid} {path : List Coord}
    {rest : List (Grid × List Coord)} {seen : Finset Grid} (hg : g ∉ seen)
    (hsol : ¬g.isSolved goals = true) :
    bfs goals ((g, path) :: rest) seen
      = bfs goals (rest ++ pressMoves.map (fun rc => (pressD g rc, path ++ [rc])))
          (insert g seen) := by
  rw [bfs.eq_def]
  exact (dif_neg hg).trans (if_neg hsol)

/-- Walking a path that starts inside `seen`: with the head of the queue
itself expanded, the walk either stays inside `seen` to the end or exits
into a tail entry whose total budget still fits. -/
theorem bfs_walk {g0 g : Grid} {path : List Coord}
    {rest : List (Grid × List Coord)} {seen : Finset Grid}
    (hstep : ∀ s ∈ seen, ∀ n, reachIn g0 n s → ∀ rc ∈ pressMoves,
      pressD s rc ∈ seen ∨ ∃ p2, (pressD s rc, p2) ∈ (g, path) :: rest
        ∧ p2.length ≤ n + 1)
    (hg : g ∈ seen) :
    ∀ (r : List Coord) (s : Grid) (k : Nat) (x : Grid), s ∈ seen →
      reachIn g0 k s → validPath r → applyPath s r = x →
      x ∈ seen ∨ ∃ e ∈ rest, ∃ r2, validPath r2 ∧ applyPath e.1 r2 = x
        ∧ e.2.length + r2.length ≤ k + r.length := by
  intro r
  induction r with
  | nil =>
    intro s k x hs _ _ happ
    left
    rw [← happ]
    exact hs
  | cons rc r2 ih =>
    intro s k x hs hreach hvr happ
    have hrc : rc ∈ pressMoves :=
      mem_pressMoves_iff.mpr (hvr rc (List.mem_cons_self _ _))
    have hvr2 : validPath r2 := fun a ha => hvr a (List.mem_cons_of_mem _ ha)
    have hreach1 : reachIn g0 (k + 1) (pressD s rc) := by
      obtain ⟨q, hq1, hq2, hq3⟩ := hreach
      refine ⟨q ++ [rc], ?_, by simp [hq2], ?_⟩
      · intro a ha
        rcases List.mem_append.mp ha with ha | ha
        · exact hq1 a ha
        · rw [List.mem_singleton] at ha
          subst ha
          exact mem_pressMoves_iff.mp hrc
      · rw [applyPath_append, hq3]
        rfl
    have hcont : pressD s rc ∈ seen →
        x ∈ seen ∨ ∃ e ∈ rest, ∃ r3, validPath r3 ∧ applyPath e.1 r3 = x
          ∧ e.2.length + r3.length ≤ k + (rc :: r2).length := by
      intro hmem
      rcases ih (pressD s rc) (k + 1) x hmem hreach1 hvr2 happ with h | ⟨e, he, r3, h1, h2, h3⟩
      · exact Or.inl h
      · refine Or.inr ⟨e, he, r3, h1, h2, ?_⟩
        simp only [List.length_cons] at h3 ⊢
        omega
    rcases hstep s hs k hreach rc hrc with hmem | ⟨p2, hp2mem, hp2len⟩
    · exact hcont hmem
    · rcases List.mem_cons.mp hp2mem with heq | hrest
      · have hgg : pressD s rc = g := congrArg Prod.fst heq
        exact hcont (hgg ▸ hg)
      · refine Or.inr ⟨(pressD s rc, p2), hrest, r2, hvr2, happ, ?_⟩
        simp only [List.length_cons]
        omega

end Solver

namespace Solver

/-- The BFS loop, run from any state satisfying the invariant, computes a
valid shortest goal path or a proof of unreachability. -/
theorem bfs_good (goals : Fin 4 → Color) (g0 : Grid) :
    ∀ (queue : List (Grid × List Coord)) (seen : Finset Grid),
      BfsInv goals g0 queue seen → BfsGood goals g0 (bfs goals queue seen) := by
  intro queue seen
  induction queue, seen using bfs.induct goals with
  | case1 seen =>
    intro hinv
    rw [bfs_nil]
    intro q hq
    rcases hinv.coverage q.length (applyPath g0 q) ⟨q, hq, rfl, rfl⟩ with hmem | ⟨e, he, _⟩
    · exact hinv.seenNotSolved _ hmem
    · exact absurd he (List.not_mem_nil e)
  | case2 g path rest seen hg ih =>
    intro hinv
    rw [bfs_cons_seen hg]
    apply ih
    have hpc := List.pairwise_cons.mp hinv.sorted
    refine ⟨fun e he => hinv.entries e (List.mem_cons_of_mem _ he), hpc.2,
      fun e1 h1 e2 h2 => hinv.twoLevels e1 (List.mem_cons_of_mem _ h1) e2
        (List.mem_cons_of_mem _ h2),
      hinv.seenNotSolved, ?_, ?_⟩
    · intro n x hreach
      rcases hinv.coverage n x hreach with hmem | ⟨e, he, r, hvr, happ, hlen⟩
      · exact Or.inl hmem
      · rcases List.mem_cons.mp he with rfl | hrest
        · have hepath := hinv.entries (g, path) (List.mem_cons_self _ _)
          have hreachg : reachIn g0 path.length g := ⟨path, hepath.1, rfl, hepath.2⟩
          rcases bfs_walk hinv.seenStep hg r g path.length x hg hreachg hvr happ with
            h | ⟨e2, he2, r2, h1, h2, h3⟩
          · exact Or.inl h
          · have hlen2 : path.length + r.length ≤ n := hlen
            exact Or.inr ⟨e2, he2, r2, h1, h2, by omega⟩
        · exact Or.inr ⟨e, hrest, r, hvr, happ, hlen⟩
    · intro s hs n hreach rc hrc
      rcases hinv.seenStep s hs n hreach rc hrc with h | ⟨p2, hp2, hlen⟩
      · exact Or.inl h
      · rcases List.mem_cons.mp hp2 with heq | hrest
        · have hx : pressD s rc = g := congrArg Prod.fst heq
          exact Or.inl (hx ▸ hg)
        · exact Or.inr ⟨p2, hrest, hlen⟩
  | case3 g path rest seen hg hsol =>
    intro hinv
    rw [bfs_cons_solved hg hsol]
    obtain ⟨hv, happ⟩ := hinv.entries (g, path) (List.mem_cons_self _ _)
    refine ⟨hv, by rw [happ]; exact hsol, ?_⟩
    intro q hq hsolq
    have hnotseen : applyPath g0 q ∉ seen := by
      intro hmem
      rw [hinv.seenNotSolved _ hmem] at hsolq
      cases hsolq
    rcases hinv.coverage q.length (applyPath g0 q) ⟨q, hq, rfl, rfl⟩ with
      hmem | ⟨e, he, r, hr⟩
    · exact absurd hmem hnotseen
    · have hle : path.length ≤ e.2.length := by
        rcases List.mem_cons.mp he with rfl | hrest
        · exact le_refl _
        · exact (List.pairwise_cons.mp hinv.sorted).1 e hrest
      have := hr.2.2
      omega
  | case4 g path rest seen hg hsol ih =>
    intro hinv
    rw [bfs_cons_step hg hsol]
    apply ih
    have hhead := hinv.entries (g, path) (List.mem_cons_self _ _)
    have hpc := List.pairwise_cons.mp hinv.sorted
    have hheadmin : ∀ n, reachIn g0 n g → path.length ≤ n := by
      intro n hreach
      rcases hinv.coverage n g hreach with hmem | ⟨e, he, r, _, _, hlen⟩
      · exact absurd hmem hg
      · have : path.length ≤ e.2.length := by
          rcases List.mem_cons.mp he with rfl | hrest
          · exact le_refl _
          · exact hpc.1 e hrest
        omega
    constructor
    · intro e he
      rcases List.mem_append.mp he with hrest | hchild
      · exact hinv.entries e (List.mem_cons_of_mem _ hrest)
      · obtain ⟨rc, hrc, rfl⟩ := List.mem_map.mp hchild
        constructor
        · intro a ha
          rcases List.mem_append.mp ha with ha | ha
          · exact hhead.1 a ha
          · rw [List.mem_singleton] at ha
            subst ha
            exact mem_pressMoves_iff.mp hrc
        · rw [applyPath_append, hhead.2]
          rfl
    · rw [List.pairwise_append]
      refine ⟨hpc.2, ?_, ?_⟩
      · refine List.pairwise_map.mpr ?_
        have hall : ∀ (l : List Coord), List.Pairwise
            (fun a b => (path ++ [a]).length ≤ (path ++ [b]).length) l := by
          intro l
          induction l with
          | nil => exact List.Pairwise.nil
          | cons a as ihp => exact List.Pairwise.cons (fun b _ => by simp) ihp
        exact hall pressMoves
      · intro e1 h1 e2 h2
        obtain ⟨rc, hrc, rfl⟩ := List.mem_map.mp h2
        have htw : e1.2.length ≤ path.length + 1 :=
          hinv.twoLevels e1 (List.mem_cons_of_mem _ h1) (g, path)
            (List.mem_cons_self _ _)
        simp only [List.length_append, List.length_cons, List.length_nil]
        omega
    · intro e1 h1 e2 h2
      rcases List.mem_append.mp h1 with h1 | h1 <;> rcases List.mem_append.mp h2 with h2 | h2
      · exact hinv.twoLevels e1 (List.mem_cons_of_mem _ h1) e2 (List.mem_cons_of_mem _ h2)
      · obtain ⟨rc, hrc, rfl⟩ := List.mem_map.mp h2
        have htw : e1.2.length ≤ path.length + 1 :=
          hinv.twoLevels e1 (List.mem_cons_of_mem _ h1) (g, path)
            (List.mem_cons_self _ _)
        simp only [List.length_append, List.length_cons, List.length_nil]
        omega
      · obtain ⟨rc, hrc, rfl⟩ := List.mem_map.mp h1
        have htw : path.length ≤ e2.2.length := hpc.1 e2 h2
        simp only [List.length_append, List.length_cons, List.length_nil]
        omega
      · obtain ⟨rc1, hm1, rfl⟩ := List.mem_map.mp h1
        obtain ⟨rc2, hm2, rfl⟩ := List.mem_map.mp h2
        simp
    · intro s hs
      rcases Finset.mem_insert.mp hs with rfl | hs
      · simpa using hsol
      · exact hinv.seenNotSolved s hs
    · intro n x hreach
      rcases hinv.coverage n x hreach with hmem | ⟨e, he, r, hvr, happ, hlen⟩
      · exact Or.inl (Finset.mem_insert_of_mem hmem)
      · rcases List.mem_cons.mp he with rfl | hrest
        · cases r with
          | nil =>
            left
            rw [← happ]
            exact Finset.mem_insert_self g seen
          | cons rc r2 =>
            right
            have hrc : rc ∈ pressMoves :=
              mem_pressMoves_iff.mpr (hvr rc (List.mem_cons_self _ _))
            refine ⟨(pressD g rc, path ++ [rc]),
              List.mem_append_right _ (List.mem_map.mpr ⟨rc, hrc, rfl⟩), r2,
              fun a ha => hvr a (List.mem_cons_of_mem _ ha), happ, ?_⟩
            simp only [List.length_append, List.length_cons, List.length_nil] at hlen ⊢
            omega
        · exact Or.inr ⟨e, List.mem_append_left _ hrest, r, hvr, happ, hlen⟩
    · intro s hs n hreach rc hrc
      rcases Finset.mem_insert.mp hs with rfl | hs
      · right
        refine ⟨path ++ [rc],
          List.mem_append_right _ (List.mem_map.mpr ⟨rc, hrc, rfl⟩), ?_⟩
        have := hheadmin n hreach
        simp only [List.length_append, List.length_cons, List.length_nil]
        omega
      · rcases hinv.seenStep s hs n hreach rc hrc with h | ⟨p2, hp2, hlen⟩
        · exact Or.inl (Finset.mem_insert_of_mem h)
        · rcases List.mem_cons.mp hp2 with heq | hrest2
          · have hx : pressD s rc = g := congrArg Prod.fst heq
            exact Or.inl (hx ▸ Finset.mem_insert_self g seen)
          · exact Or.inr ⟨p2, List.mem_append_left _ hrest2, hlen⟩

/-- The solver meets `BfsGood` from its initial state. -/
theorem solve_good (goals : Fin 4 → Color) (g0 : Grid) :
    BfsGood goals g0 (solve goals g0) := by
  rw [solve]
  apply bfs_good
  refine ⟨?_, ?_, ?_, ?_, ?_, ?_⟩
  · intro e he
    rw [List.mem_singleton] at he
    subst he
    exact ⟨fun a ha => absurd ha (List.not_mem_nil a), rfl⟩
  · simp
  · intro e1 h1 e2 h2
    rw [List.mem_singleton] at h1 h2
    subst h1
    subst h2
    simp
  · intro s hs
    exact absurd hs (Finset.not_mem_empty s)
  · intro n x hreach
    obtain ⟨q, h1, h2, h3⟩ := hreach
    exact Or.inr ⟨(g0, []), List.mem_singleton_self _, q, h1, h3, by simp [h2]⟩
  · intro s hs
    exact absurd hs (Finset.not_mem_empty s)

end Solver

/-! ## Claim C1: the solver finds a shortest solution exactly when one exists -/

/-- C1: `solve(goals, grid)` returns a path precisely when some valid press
sequence turns `grid` into a grid whose corner tiles at NW=(2,0), NE=(2,2),
SW=(0,0), SE=(0,2) equal `goals`; any returned path is valid, reaches such a
goal grid, and no strictly shorter valid press sequence reaches one. -/
theorem solve_shortest_iff_reachable (goals : Fin 4 → Color) (g0 : Grid) :
    ((∃ q, Solver.validPath q ∧ (Solver.applyPath g0 q).isSolved goals = true)
      ↔ ∃ p, Solver.solve goals g0 = some p)
    ∧ ∀ p, Solver.solve goals g0 = some p →
        Solver.validPath p ∧ (Solver.applyPath g0 p).isSolved goals = true
        ∧ ∀ q, Solver.validPath q → (Solver.applyPath g0 q).isSolved goals = true →
            p.length ≤ q.length := by
  have hgood := Solver.solve_good goals g0
  constructor
  · constructor
    · rintro ⟨q, hq, hsolq⟩
      cases hsp : Solver.solve goals g0 with
      | some p => exact ⟨p, rfl⟩
      | none =>
        rw [hsp] at hgood
        rw [hgood q hq] at hsolq
        cases hsolq
    · rintro ⟨p, hp⟩
      rw [hp] at hgood
      exact ⟨p, hgood.1, hgood.2.1⟩
  · intro p hp
    rw [hp] at hgood
    exact hgood

/-- All-Gray fixtures: a board of Gray tiles solves all-Gray goals with the
empty press sequence. -/
def grayGrid : Grid := ⟨fun _ => Color.Gray⟩

def grayGoals : Fin 4 → Color := fun _ => Color.Gray

theorem solve_gray_nil : Solver.solve grayGoals grayGrid = some [] := by
  rw [Solver.solve]
  exact Solver.bfs_cons_solved (Finset.not_mem_empty _) (by decide)

theorem solve_shortest_witness :
    Solver.solve grayGoals grayGrid = some []
    ∧ Solver.validPath []
    ∧ (Solver.applyPath grayGrid []).isSolved grayGoals = true :=
  ⟨solve_gray_nil,
    ((solve_shortest_iff_reachable grayGoals grayGrid).2 [] solve_gray_nil).1,
    ((solve_shortest_iff_reachable grayGoals grayGrid).2 [] solve_gray_nil).2.1⟩

/-! ## Claim C7: the solver terminates, answering None exactly on unsolvable
input, over a state space of `NUM_VARIANTS ^ 9` grids -/

/-- C7: `solve` is a total function (it is defined by a well-founded
recursion whose measure is bounded by the number of distinct grids); it
returns `none` precisely when no valid press sequence reaches a goal grid,
and the grid state space has exactly `NUM_VARIANTS ^ 9` elements. -/
theorem solve_none_iff_unsolvable (goals : Fin 4 → Color) (g0 : Grid) :
    (Solver.solve goals g0 = none
      ↔ ∀ q, Solver.validPath q → (Solver.applyPath g0 q).isSolved goals = false)
    ∧ Fintype.card Grid = Color.NUM_VARIANTS ^ 9 := by
  have hgood := Solver.solve_good goals g0
  constructor
  · constructor
    · intro h
      rw [h] at hgood
      exact hgood
    · intro hall
      cases hsp : Solver.solve goals g0 with
      | none => rfl
      | some p =>
        rw [hsp] at hgood
        have hfalse := hall p hgood.1
        rw [hgood.2.1] at hfalse
        cases hfalse
  · rw [Fintype.card_congr gridEquiv, Fintype.card_fun, Fintype.card_fin]
    rfl

/-- Pressing anywhere on the all-Gray grid leaves it unchanged (valid
presses hit the Gray rule; invalid ones panic and `pressD` falls back). -/
theorem pressD_gray (rc : Solver.Coord) : Solver.pressD grayGrid rc = grayGrid := by
  obtain ⟨a, b⟩ := rc
  by_cases ha : a < 3 ∧ b < 3
  · obtain ⟨h1, h2⟩ := ha
    interval_cases a <;> interval_cases b <;> rfl
  · have hnone : grayGrid.press a b = none :=
      (press_eq_none_iff _ _ _).mpr (by omega)
    rw [Solver.pressD, hnone]
    rfl

theorem applyPath_gray (q : List Solver.Coord) :
    Solver.applyPath grayGrid q = grayGrid := by
  induction q with
  | nil => rfl
  | cons rc rest ih =>
    rw [Solver.applyPath, pressD_gray]
    exact ih

def whiteGoals : Fin 4 → Color := fun _ => Color.White

theorem solve_none_witness :
    Solver.solve whiteGoals grayGrid = none
    ∧ Fintype.card Grid = Color.NUM_VARIANTS ^ 9 := by
  have h := solve_none_iff_unsolvable whiteGoals grayGrid
  refine ⟨h.1.mpr ?_, h.2⟩
  intro q hq
  rw [applyPath_gray]
  decide
